import Mathlib

/-!
Verification of the project-starter-pro repository against its specification.

Part 1 models the backend CRUD and security helpers
(`backend/app/crud/project.py`, `backend/app/core/security.py`).
Part 2 models the documentation-agent pipeline
(`src/agents/documentation_agent/*`); the implementation modules are not
present in the repository checkout (only the package export list is), so the
components are modelled from the specification, as flagged on each definition.
-/

namespace Backend

/-- Row of the `projects` table (`backend/app/models/project.py`):
`id` integer primary key, `name` non-null string, `description` nullable text,
`created_at` timestamp. Time is modelled as `Nat`. -/
structure Project where
  id : Nat
  name : String
  description : Option String
  created_at : Nat
  deriving DecidableEq, Repr

/-- `ProjectUpdate` schema: both fields optional (`None` means "leave unchanged"). -/
structure ProjectUpdate where
  name : Option String
  description : Option String
  deriving DecidableEq, Repr

/-- `get_project` (`backend/app/crud/project.py`): select the row whose `id`
matches; the database is modelled as the list of stored rows. -/
def get_project (db : List Project) (pid : Nat) : Option Project :=
  db.find? (fun p => p.id == pid)

/-- The two field assignments inside `update_project`: each field is written
only when the corresponding `ProjectUpdate` field `is not None`. -/
def applyProjectUpdate (u : ProjectUpdate) (p : Project) : Project :=
  let p1 := match u.name with
    | some n => { p with name := n }
    | none => p
  match u.description with
  | some d => { p1 with description := some d }
  | none => p1

/-- `update_project` (`backend/app/crud/project.py` lines 32-45): look the
project up; on a miss return `None` with the store untouched; otherwise apply
the optional field updates to the targeted row and return it. -/
def update_project (db : List Project) (pid : Nat) (u : ProjectUpdate) :
    List Project × Option Project :=
  match get_project db pid with
  | none => (db, none)
  | some p =>
      (db.map (fun q => if q.id == pid then applyProjectUpdate u q else q),
       some (applyProjectUpdate u p))

/-- A bcrypt hash string embeds the salt followed by the key-stretched digest;
the digest is an abstract deterministic function of salt and password.
Modelled from the bcrypt library contract used by
`backend/app/core/security.py`. -/
structure BcryptHash where
  salt : String
  digest : String
  deriving DecidableEq, Repr

/-- Abstract key-derivation at the heart of bcrypt: any deterministic function
of (password, salt).  The round-trip property holds for every such function,
so it is a parameter of the model. -/
def bcryptKDF (password salt : String) : String :=
  salt ++ "$" ++ password

/-- `bcrypt.hashpw(password, salt)`: deterministic in (password, salt), output
embeds the salt. -/
def hashpw (password salt : String) : BcryptHash :=
  { salt := salt, digest := bcryptKDF password salt }

/-- `bcrypt.checkpw(plain, hashed)`: re-derive with the salt stored in
`hashed` and compare. -/
def checkpw (plain : String) (hashed : BcryptHash) : Bool :=
  hashpw plain hashed.salt == hashed

/-- `hash_password` (`backend/app/core/security.py`): `gensalt` is a fresh
random salt, modelled as an explicit argument; then `bcrypt.hashpw`. -/
def hash_password (password : String) (salt : String) : BcryptHash :=
  hashpw password salt

/-- `verify_password` (`backend/app/core/security.py`): delegates to
`bcrypt.checkpw`. -/
def verify_password (plain : String) (hashed : BcryptHash) : Bool :=
  checkpw plain hashed

end Backend

namespace DocAgent

/-! The documentation-agent implementation modules
(`agent.py`, `discovery.py`, `scraper.py`, `normalizer.py`, `indexer.py`,
`search.py` under `src/agents/documentation_agent/`) are missing from the
checkout; only `__init__.py` with the export list is present.  Every
definition below is therefore modelled from the specification
(spec.md sections 3-7), as its doc comment states. -/

/-- Rolling-hash step over the characters of a text. -/
def hashChars : List Char → Nat → Nat
  | [], h => h
  | c :: cs, h => hashChars cs ((h * 31 + c.toNat) % 2 ^ 64)

/-- Modelled from the spec: cryptographic content digest.  Determinism and
equality behaviour are all the claims use, so the digest is a rolling hash of
the text, reduced modulo 2^64. -/
def hashString (s : String) : Nat :=
  hashChars s.toList 7

/-- Modelled from the spec: `doc_id` is "derived deterministically from `url`
(stable across re-crawls)"; the derivation is modelled as the URL itself. -/
def docIdOf (url : String) : String :=
  url

/-- Characters kept by the indexing tokenizer (word constituents). -/
def isWordChar (c : Char) : Bool :=
  c.isAlpha || c.isDigit

/-- Tokenizer loop: accumulate word constituents (case-folded), emit a word
at each non-word character. -/
def tokenizeGo : List Char → List Char → List String
  | [], [] => []
  | [], acc => [acc.reverse.asString]
  | c :: cs, acc =>
      if isWordChar c then tokenizeGo cs (c.toLower :: acc)
      else if acc.isEmpty then tokenizeGo cs []
      else acc.reverse.asString :: tokenizeGo cs []

/-- Modelled from the spec: "case-folded, punctuation-stripped word
splitting", used identically for indexing and for queries. -/
def tokenize (s : String) : List String :=
  tokenizeGo s.toList []

/-- Split a text into its lines. -/
def splitLinesGo : List Char → List Char → List (List Char)
  | [], acc => [acc.reverse]
  | c :: cs, acc =>
      if c = '\n' then acc.reverse :: splitLinesGo cs []
      else splitLinesGo cs (c :: acc)

/-- Split a text at whitespace, dropping empty words. -/
def splitWordsGo : List Char → List Char → List (List Char)
  | [], [] => []
  | [], acc => [acc.reverse]
  | c :: cs, acc =>
      if c = ' ' ∨ c = '\n' then
        if acc.isEmpty then splitWordsGo cs [] else acc.reverse :: splitWordsGo cs []
      else splitWordsGo cs (c :: acc)

/-- Whether `pat` is a leading segment of `s`. -/
def startsWithChars : List Char → List Char → Bool
  | [], _ => true
  | _ :: _, [] => false
  | a :: as, b :: bs => a == b && startsWithChars as bs

/-- Rejoin lines with newlines. -/
def joinLines : List (List Char) → List Char
  | [] => []
  | [l] => l
  | l :: ls => l ++ '\n' :: joinLines ls

/-- Rejoin words with single spaces. -/
def joinWords : List (List Char) → List Char
  | [] => []
  | [w] => w
  | w :: ws => w ++ ' ' :: joinWords ws

/-- Lexicographic less-or-equal on character lists (the deterministic order
used for the `doc_id` tie-break). -/
def charsLE : List Char → List Char → Bool
  | [], _ => true
  | _ :: _, [] => false
  | a :: as, b :: bs => decide (a < b) || (a == b && charsLE as bs)

/-- Deterministic total order on strings used for the `doc_id` tie-break. -/
def strLE (a b : String) : Bool :=
  charsLE a.toList b.toList

/-- Modelled from the spec: `RawPage` record (§3); `fetched_at` and
`content_type` are dropped as no claim mentions them. -/
structure RawPage where
  source_id : Nat
  url : String
  http_status : Nat
  body_bytes : List Nat
  deriving DecidableEq, Repr

/-- Modelled from the spec: `Section` record of the `Document` model. -/
structure DocSection where
  heading : String
  level : Nat
  text : String
  code_blocks : List String
  deriving DecidableEq, Repr

/-- Modelled from the spec: canonical `Document` record (§3). -/
structure Document where
  doc_id : String
  source_id : Nat
  url : String
  title : String
  sections : List DocSection
  canonical_text : String
  content_hash : Nat
  normalized_at : Nat
  deriving DecidableEq, Repr

/-- Modelled from the spec: `NormalizationError` — content undecodable or no
extractable text (§4.3). -/
inductive NormError where
  | undecodable
  | noText
  deriving DecidableEq, Repr

/-- Modelled from the spec: character-encoding decode; bytes are taken as a
7-bit-clean encoding, anything else is undecodable. -/
def decodeChars (bs : List Nat) : Option (List Char) :=
  if bs.all (fun b => b < 128) then
    some (bs.map (fun b => Char.ofNat b))
  else
    none

/-- A line of non-content boilerplate: markup tags (navigation, scripts,
styling) are recognised structurally as lines starting with `<`. -/
def isBoilerplateChars (l : List Char) : Bool :=
  startsWithChars ['<'] l

/-- Modelled from the spec: heading recognition — a markdown-style heading
line starts with `#`; its level is the number of leading `#`. -/
def headingLevel (l : String) : Nat :=
  (l.toList.takeWhile (fun c => c = '#')).length

/-- Split cleaned text into ordered sections at heading lines. -/
def sectionsOf (lines : List String) : List DocSection :=
  lines.foldl
    (fun acc l =>
      if headingLevel l > 0 then
        acc ++ [{ heading := l, level := headingLevel l, text := "", code_blocks := [] }]
      else
        match acc.getLast? with
        | none => [{ heading := "", level := 0, text := l, code_blocks := [] }]
        | some s =>
            acc.dropLast ++ [{ s with text := s.text ++ "\n" ++ l }])
    []

/-- The body-only core of normalization: decode, strip boilerplate, and fail
when nothing decodable or no extractable text remains.  Returns the canonical
text, its content hash, and the kept lines. -/
def normCore (bs : List Nat) : Except NormError (String × Nat × List String) :=
  match decodeChars bs with
  | none => .error .undecodable
  | some chars =>
      let kept := (splitLinesGo chars []).filter (fun l => !isBoilerplateChars l)
      let t := (joinLines kept).asString
      if (tokenize t).isEmpty then .error .noText
      else .ok (t, hashString t, kept.map (fun l => l.asString))

/-- Modelled from the spec: `normalize(RawPage) → Document | NormalizationError`
(§4.3) — pure and deterministic, canonical text and content hash depend only
on `body_bytes`. -/
def normalize (r : RawPage) (now : Nat) : Except NormError Document :=
  match normCore r.body_bytes with
  | .error e => .error e
  | .ok (t, h, kept) =>
      .ok { doc_id := docIdOf r.url
            source_id := r.source_id
            url := r.url
            title := (kept.headD "")
            sections := sectionsOf kept
            canonical_text := t
            content_hash := h
            normalized_at := now }

/-- Modelled from the spec: a postings entry
`(doc_id, term_frequency, positions[])`; the `doc_id` is the key of the
surrounding per-document entry, so only term, frequency and positions are
stored here. -/
structure Posting where
  term : String
  tf : Nat
  positions : List Nat
  deriving DecidableEq, Repr

/-- Modelled from the spec: build the postings of one document by tokenizing
`canonical_text` and computing term frequency and positions per term. -/
def postingsOf (text : String) : List Posting :=
  let toks := tokenize text
  toks.dedup.map (fun t =>
    { term := t
      tf := (toks.filter (fun w => w == t)).length
      positions := (toks.enum.filter (fun p => p.2 == t)).map (fun p => p.1) })

/-- One document of an index version together with its postings. -/
structure IndexedDoc where
  doc : Document
  postings : List Posting
  deriving DecidableEq, Repr

/-- Modelled from the spec: an immutable, versioned index — a `doc_id →
Document` store with per-document postings (the term → postings map is its
transpose). -/
structure IndexVersion where
  entries : List IndexedDoc
  version : Nat
  deriving DecidableEq, Repr

/-- The index of a freshly constructed agent. -/
def emptyIndex : IndexVersion :=
  { entries := [], version := 0 }

/-- Find the entry stored under a `doc_id`, if any. -/
def lookupEntry (iv : IndexVersion) (did : String) : Option IndexedDoc :=
  iv.entries.find? (fun e => e.doc.doc_id == did)

/-- One step of incremental ingestion: skip batch duplicates (a URL is
crawled at most once, so these do not arise in the pipeline); carry the prior
entry over untouched when `content_hash` matches; otherwise recompute
postings and count the document as reindexed. -/
def ingestDoc (prior : IndexVersion) (acc : List IndexedDoc × Nat) (d : Document) :
    List IndexedDoc × Nat :=
  if acc.1.any (fun e => e.doc.doc_id == d.doc_id) then acc
  else
    match lookupEntry prior d.doc_id with
    | some e =>
        if e.doc.content_hash == d.content_hash then (acc.1 ++ [e], acc.2)
        else (acc.1 ++ [{ doc := d, postings := postingsOf d.canonical_text }], acc.2 + 1)
    | none => (acc.1 ++ [{ doc := d, postings := postingsOf d.canonical_text }], acc.2 + 1)

/-- Modelled from the spec: `ingest(Document[]) → IndexVersion` (§4.4), with
one coalesced batch per refresh (§5 allows coalescing).  `sids` are the ids
of the sources being refreshed; their prior documents absent from the new
batch are removed; documents whose hash matches the prior version are
carried over.  Also returns the number of reindexed (recomputed) documents. -/
def ingest (prior : IndexVersion) (sids : List Nat) (batch : List Document) :
    IndexVersion × Nat :=
  let res := batch.foldl (ingestDoc prior) ([], 0)
  let kept := prior.entries.filter (fun e =>
    (!sids.contains e.doc.source_id) && !res.1.any (fun n => n.doc.doc_id == e.doc.doc_id))
  ({ entries := kept ++ res.1, version := prior.version + 1 }, res.2)

/-- The terms a document is indexed under. -/
def termsOf (e : IndexedDoc) : List String :=
  e.postings.map Posting.term

/-- Term frequency of `t` in an indexed document, read from its postings. -/
def tfOf (e : IndexedDoc) (t : String) : Nat :=
  match e.postings.find? (fun p => p.term == t) with
  | some p => p.tf
  | none => 0

/-- Document frequency: how many documents of the version contain `t`. -/
def dfOf (iv : IndexVersion) (t : String) : Nat :=
  (iv.entries.filter (fun e => e.postings.any (fun p => p.term == t))).length

/-- Fixed-point scale for the inverse-document-frequency weight. -/
def SCALE : Nat := 1000

/-- Modelled from the spec: inverse document frequency across the corpus at
publish time, in fixed-point arithmetic (scaled corpus size over document
frequency); 0 for a term absent from the corpus. -/
def idfOf (iv : IndexVersion) (t : String) : Nat :=
  if dfOf iv t = 0 then 0 else iv.entries.length * SCALE / dfOf iv t

/-- Modelled from the spec: TF-IDF similarity — sum over the distinct query
terms of term frequency × inverse document frequency. -/
def scoreOf (iv : IndexVersion) (q : String) (e : IndexedDoc) : Nat :=
  ((tokenize q).dedup.map (fun t => tfOf e t * idfOf iv t)).sum

/-- Candidate documents: those containing at least one query term. -/
def candidates (iv : IndexVersion) (q : String) : List IndexedDoc :=
  iv.entries.filter (fun e =>
    (tokenize q).any (fun t => e.postings.any (fun p => p.term == t)))

/-- Ranking key of a scored candidate: (score, normalized_at, doc_id). -/
abbrev RankKey := Nat × Nat × String

/-- Modelled from the spec: the documented result order — descending score,
ties by most-recent `normalized_at` descending, then `doc_id` ascending. -/
def keyLE (a b : RankKey) : Prop :=
  b.1 < a.1 ∨ (a.1 = b.1 ∧ (b.2.1 < a.2.1 ∨ (a.2.1 = b.2.1 ∧ strLE a.2.2 b.2.2 = true)))

instance : DecidableRel keyLE := fun a b => by
  unfold keyLE
  infer_instance

/-- Ranking key of a scored candidate. -/
def keyOf (p : IndexedDoc × Nat) : RankKey :=
  (p.2, p.1.doc.normalized_at, p.1.doc.doc_id)

/-- Result order lifted to scored candidates. -/
def candLE (a b : IndexedDoc × Nat) : Prop :=
  keyLE (keyOf a) (keyOf b)

instance : DecidableRel candLE := fun a b => by
  unfold candLE
  infer_instance

instance : IsTotal RankKey keyLE := ⟨by
  have tot : ∀ as bs : List Char, charsLE as bs = true ∨ charsLE bs as = true := by
    intro as
    induction as with
    | nil => intro bs; exact Or.inl rfl
    | cons a as ih =>
      intro bs
      cases bs with
      | nil => exact Or.inr rfl
      | cons b bs =>
        rcases lt_trichotomy a b with h | h | h
        · exact Or.inl (by simp [charsLE, h])
        · subst h
          rcases ih bs with h2 | h2
          · exact Or.inl (by simp [charsLE, h2])
          · exact Or.inr (by simp [charsLE, h2])
        · exact Or.inr (by simp [charsLE, h])
  intro a b
  unfold keyLE
  rcases Nat.lt_trichotomy a.1 b.1 with h | h | h
  · exact Or.inr (Or.inl h)
  · rcases Nat.lt_trichotomy a.2.1 b.2.1 with h2 | h2 | h2
    · exact Or.inr (Or.inr ⟨h.symm, Or.inl h2⟩)
    · rcases tot a.2.2.toList b.2.2.toList with h3 | h3
      · exact Or.inl (Or.inr ⟨h, Or.inr ⟨h2, h3⟩⟩)
      · exact Or.inr (Or.inr ⟨h.symm, Or.inr ⟨h2.symm, h3⟩⟩)
    · exact Or.inl (Or.inr ⟨h, Or.inl h2⟩)
  · exact Or.inl (Or.inl h)⟩

instance : IsTrans RankKey keyLE := ⟨by
  have tr : ∀ as bs cs : List Char,
      charsLE as bs = true → charsLE bs cs = true → charsLE as cs = true := by
    intro as
    induction as with
    | nil => intro bs cs _ _; rfl
    | cons a as ih =>
      intro bs cs h1 h2
      cases bs with
      | nil => simp [charsLE] at h1
      | cons b bs =>
        cases cs with
        | nil => simp [charsLE] at h2
        | cons c cs =>
          simp only [charsLE, Bool.or_eq_true, Bool.and_eq_true, decide_eq_true_eq,
            beq_iff_eq] at h1 h2 ⊢
          rcases h1 with h1 | ⟨rfl, h1⟩
          · rcases h2 with h2 | ⟨rfl, h2⟩
            · exact Or.inl (lt_trans h1 h2)
            · exact Or.inl h1
          · rcases h2 with h2 | ⟨rfl, h2⟩
            · exact Or.inl h2
            · exact Or.inr ⟨rfl, ih bs cs h1 h2⟩
  intro a b c hab hbc
  unfold keyLE at hab hbc ⊢
  rcases hab with h1 | ⟨e1, h1⟩
  · rcases hbc with h2 | ⟨e2, h2⟩
    · exact Or.inl (lt_trans h2 h1)
    · exact Or.inl (e2 ▸ h1)
  · rcases hbc with h2 | ⟨e2, h2⟩
    · exact Or.inl (e1 ▸ h2)
    · refine Or.inr ⟨e1.trans e2, ?_⟩
      rcases h1 with g1 | ⟨f1, g1⟩
      · rcases h2 with g2 | ⟨f2, g2⟩
        · exact Or.inl (lt_trans g2 g1)
        · exact Or.inl (f2 ▸ g1)
      · rcases h2 with g2 | ⟨f2, g2⟩
        · exact Or.inl (f1 ▸ g2)
        · exact Or.inr ⟨f1.trans f2, tr _ _ _ g1 g2⟩⟩

instance : IsTotal (IndexedDoc × Nat) candLE :=
  ⟨fun a b => IsTotal.total (r := keyLE) (keyOf a) (keyOf b)⟩

instance : IsTrans (IndexedDoc × Nat) candLE :=
  ⟨fun _ _ _ h1 h2 => IsTrans.trans (r := keyLE) _ _ _ h1 h2⟩

/-- Candidates with their scores, sorted into the documented result order. -/
def rankedCandidates (iv : IndexVersion) (q : String) : List (IndexedDoc × Nat) :=
  ((candidates iv q).map (fun e => (e, scoreOf iv q e))).insertionSort candLE

/-- Modelled from the spec: `SearchResult` record (§3). -/
structure SearchResult where
  doc_id : String
  score : Nat
  snippet : String
  url : String
  title : String
  deriving DecidableEq, Repr

/-- Modelled from the spec: snippet generation — a window of
`canonical_text` centered on the first matching term. -/
def snippetOf (text : String) (qtoks : List String) : String :=
  let ws := splitWordsGo text.toList []
  let i := match ws.findIdx? (fun w => qtoks.any (fun t => (tokenizeGo w []).contains t)) with
    | some j => j
    | none => 0
  (joinWords ((ws.drop (i - 3)).take 7)).asString

/-- Turn a scored candidate into the returned `SearchResult`. -/
def mkResult (q : String) (p : IndexedDoc × Nat) : SearchResult :=
  { doc_id := p.1.doc.doc_id
    score := p.2
    snippet := snippetOf p.1.doc.canonical_text (tokenize q)
    url := p.1.doc.url
    title := p.1.doc.title }

/-- Modelled from the spec: `search(query, top_k) → SearchResult[]` (§4.5). -/
def search (iv : IndexVersion) (q : String) (k : Nat) : List SearchResult :=
  ((rankedCandidates iv q).take k).map (mkResult q)

/-- Modelled from the spec: a collaborator-supplied registry record (§6).
`max_depth` is an `Int` so that the `depth ≥ 0` validation is meaningful. -/
structure RegistryEntry where
  framework_name : String
  seed_urls : List String
  allow_patterns : List String
  deny_patterns : List String
  max_depth : Int
  deriving DecidableEq, Repr

/-- Modelled from the spec: `Source` record (§3); identity is `id`. -/
structure Source where
  id : Nat
  framework_name : String
  seed_urls : List String
  allow_patterns : List String
  deny_patterns : List String
  max_depth : Nat
  deriving DecidableEq, Repr

/-- Well-formed URL check used by Discovery validation. -/
def wellFormedURL (u : String) : Bool :=
  startsWithChars "http".toList u.toList

/-- Modelled from the spec: Discovery validates each entry — non-empty seeds,
well-formed URLs, depth ≥ 0 (§4.1). -/
def validEntry (e : RegistryEntry) : Bool :=
  (!e.seed_urls.isEmpty) && e.seed_urls.all wellFormedURL && decide (0 ≤ e.max_depth)

/-- Build the `Source` for the i-th registry entry. -/
def sourceOfEntry (i : Nat) (e : RegistryEntry) : Source :=
  { id := i
    framework_name := e.framework_name
    seed_urls := e.seed_urls
    allow_patterns := e.allow_patterns
    deny_patterns := e.deny_patterns
    max_depth := e.max_depth.toNat }

/-- Recursion of `listSources` over the registry, numbering entries. -/
def listSourcesGo : Nat → List RegistryEntry → List Source × List String
  | _, [] => ([], [])
  | i, e :: rest =>
      let r := listSourcesGo (i + 1) rest
      if validEntry e then (sourceOfEntry i e :: r.1, r.2)
      else (r.1, ("invalid source: " ++ e.framework_name) :: r.2)

/-- Modelled from the spec: `listSources(registry) → Source[]` (§4.1) — each
malformed entry is skipped and reported, the rest are kept in insertion
order. -/
def listSources (registry : List RegistryEntry) : List Source × List String :=
  listSourcesGo 0 registry

/-- Modelled from the spec: outcome of one fetch attempt through the injected
transport; `transient` covers timeout, 5xx and connection reset, `permanent`
covers 4xx other than 429 and malformed URLs (§7). -/
inductive FetchOutcome where
  | success (body : List Nat)
  | transient
  | permanent
  deriving DecidableEq, Repr

/-- Injected network capability: outcome of fetching a URL on a given
attempt index (a fake transport in tests, per §6). -/
def Transport := String → Nat → FetchOutcome

/-- Modelled from the spec: the fixed retry attempt count. -/
def maxAttempts : Nat := 3

/-- Modelled from the spec: base delay of the exponential backoff. -/
def backoffBase : Nat := 100

/-- Result of fetching one page after the retry policy is applied. -/
inductive FetchResult where
  | fetched (body : List Nat)
  | failed
  deriving DecidableEq, Repr

/-- Retry loop: on a transient outcome wait `backoffBase * 2 ^ attempt` and
retry while attempts remain; a permanent outcome fails immediately.  Returns
the result, the number of attempts used, and the backoff delays waited. -/
def fetchGo (t : Transport) (url : String) (attempt : Nat) (delays : List Nat) :
    Nat → FetchResult × Nat × List Nat
  | 0 => (.failed, attempt, delays)
  | r + 1 =>
      match t url attempt with
      | .success b => (.fetched b, attempt + 1, delays)
      | .permanent => (.failed, attempt + 1, delays)
      | .transient =>
          if r = 0 then (.failed, attempt + 1, delays)
          else fetchGo t url (attempt + 1) (delays ++ [backoffBase * 2 ^ attempt]) r

/-- Modelled from the spec: fetch one page with bounded retries and
exponential backoff (§4.2, §7). -/
def fetchWithRetry (t : Transport) (url : String) : FetchResult × Nat × List Nat :=
  fetchGo t url 0 [] maxAttempts

/-- Raw pages produced by a crawl plus the pages marked `Failed`. -/
structure CrawlResult where
  pages : List RawPage
  failedPages : List String
  deriving DecidableEq, Repr

/-- Modelled from the spec: allow/deny pattern filtering of URLs; patterns
match as URL prefixes, an empty allow list allows everything. -/
def urlAllowed (s : Source) (url : String) : Bool :=
  (s.allow_patterns.isEmpty ||
    s.allow_patterns.any (fun p => startsWithChars p.toList url.toList)) &&
  !(s.deny_patterns.any (fun p => startsWithChars p.toList url.toList))

/-- Modelled from the spec: outbound-link extraction — whitespace-separated
tokens of the decoded body that look like URLs. -/
def extractLinks (body : List Nat) : List String :=
  match decodeChars body with
  | none => []
  | some chars =>
      ((splitWordsGo chars []).filter (fun w => startsWithChars "http".toList w)).map
        (fun w => w.asString)

/-- Modelled from the spec: frontier loop of the crawl (§4.2) — FIFO frontier
of (url, depth), visited set keyed by URL, depth/pattern filtering, link
expansion only below `max_depth`; a failed page is recorded and the crawl
continues.  The fuel argument models the global crawl timeout. -/
def crawlGo (t : Transport) (s : Source) :
    Nat → List (String × Nat) → List String → CrawlResult → CrawlResult
  | 0, _, _, acc => acc
  | _ + 1, [], _, acc => acc
  | fuel + 1, (url, depth) :: rest, visited, acc =>
      if visited.contains url || depth > s.max_depth || !urlAllowed s url then
        crawlGo t s fuel rest (url :: visited) acc
      else
        match fetchWithRetry t url with
        | (.fetched body, _, _) =>
            let page : RawPage :=
              { source_id := s.id, url := url, http_status := 200, body_bytes := body }
            let links := if depth < s.max_depth then extractLinks body else []
            crawlGo t s fuel (rest ++ links.map (fun u => (u, depth + 1))) (url :: visited)
              { acc with pages := acc.pages ++ [page] }
        | (.failed, _, _) =>
            crawlGo t s fuel rest (url :: visited)
              { acc with failedPages := acc.failedPages ++ [url] }

/-- Modelled from the spec: the global crawl budget (crawl timeout). -/
def crawlFuel : Nat := 10000

/-- Modelled from the spec: `crawl(source) → stream<RawPage>` (§4.2), seeded
with `seed_urls` at depth 0. -/
def crawl (t : Transport) (s : Source) : CrawlResult :=
  crawlGo t s crawlFuel (s.seed_urls.map (fun u => (u, 0))) []
    { pages := [], failedPages := [] }

/-- Agent-owned state: the published index version (the only state shared
with readers). -/
structure AgentState where
  index : IndexVersion
  deriving DecidableEq, Repr

/-- State of a freshly constructed agent. -/
def initialState : AgentState :=
  { index := emptyIndex }

/-- Modelled from the spec: `RefreshReport` (§4.6). -/
structure RefreshReport where
  sources_processed : Nat
  pages_fetched : Nat
  pages_failed : Nat
  documents_indexed : Nat
  errors : List String
  deriving DecidableEq, Repr

/-- Documents of one source for the current refresh: crawled pages that
normalize successfully (a `NormalizationError` drops the page). -/
def sourceDocs (t : Transport) (now : Nat) (s : Source) : List Document :=
  (crawl t s).pages.filterMap (fun p => (normalize p now).toOption)

/-- Recorded page-level errors of one source: fetch failures and dropped
(unnormalizable) pages. -/
def sourceErrors (t : Transport) (now : Nat) (s : Source) : List String :=
  (crawl t s).failedPages.map (fun u => "fetch failed: " ++ u) ++
    ((crawl t s).pages.filter (fun p => !(normalize p now).isOk)).map
      (fun p => "normalization failed: " ++ p.url)

/-- Modelled from the spec: `refresh() → RefreshReport` (§4.6) — Discovery
once, then per-source Scraper → Normalizer into one coalesced batch, one
`ingest`, all page- and source-level failures aggregated into the report. -/
def refresh (t : Transport) (registry : List RegistryEntry) (now : Nat)
    (st : AgentState) : AgentState × RefreshReport :=
  let ds := listSources registry
  let batch := (ds.1.map (sourceDocs t now)).flatten
  let ing := ingest st.index (ds.1.map (fun s => s.id)) batch
  ({ index := ing.1 },
   { sources_processed := ds.1.length
     pages_fetched := (ds.1.map (fun s => (crawl t s).pages.length)).sum
     pages_failed := (ds.1.map (fun s => (crawl t s).failedPages.length)).sum
     documents_indexed := ing.2
     errors := ds.2 ++ (ds.1.map (sourceErrors t now)).flatten })

/-- A raw page is consistent with a transport when its body is what fetching
its URL through that transport yields. -/
def pageConsistent (t : Transport) (p : RawPage) : Prop :=
  (fetchWithRetry t p.url).1 = .fetched p.body_bytes

/-- The content hash a URL normalizes to under a transport, when its fetch
succeeds and the body normalizes; determined by the URL alone. -/
def urlHash (t : Transport) (u : String) : Option Nat :=
  match (fetchWithRetry t u).1 with
  | .fetched b =>
      match normCore b with
      | .ok x => some x.2.1
      | .error _ => none
  | .failed => none

end DocAgent


/-! Concrete fixtures used by witness theorems. -/

/-- Stored project used by witnesses. -/
def projA : Backend.Project := ⟨1, "alpha", none, 5⟩

/-- Second stored project used by witnesses. -/
def projB : Backend.Project := ⟨2, "beta", some "d", 6⟩

/-- Concrete project store. -/
def projDb : List Backend.Project := [projA, projB]

/-- Concrete update payload: set the name, leave the description alone. -/
def updFix : Backend.ProjectUpdate := ⟨some "gamma", none⟩

/-- Raw page fixture. -/
def rawX : DocAgent.RawPage := ⟨0, "http://a", 200, "hi docs".toList.map Char.toNat⟩

/-- Raw page with the same bytes under another URL. -/
def rawY : DocAgent.RawPage := ⟨1, "http://b", 200, "hi docs".toList.map Char.toNat⟩

/-- Indexed document fixture. -/
def docFix : DocAgent.Document := ⟨"http://a", 0, "http://a", "t", [], "hello world", 0, 1⟩

/-- Index entry fixture. -/
def entryFix : DocAgent.IndexedDoc := ⟨docFix, DocAgent.postingsOf "hello world"⟩

/-- One-document index fixture. -/
def ivFix : DocAgent.IndexVersion := ⟨[entryFix], 1⟩

/-- Deterministic fake transport: one good URL, everything else a permanent
failure. -/
def tFix : DocAgent.Transport :=
  fun u _ => if u == "http://a" then .success ("alpha beta".toList.map Char.toNat)
             else .permanent

/-- One-source registry fixture. -/
def regFix : List DocAgent.RegistryEntry := [⟨"fw", ["http://a"], [], [], 0⟩]

/-- Two-seed source at depth 0, no pattern filtering. -/
def srcPair (sid : Nat) (u1 u2 : String) : DocAgent.Source := ⟨sid, "f", [u1, u2], [], [], 0⟩

/-- Concrete page body. -/
def bodyFix : List Nat := "alpha beta".toList.map Char.toNat

/-- Transport where `h1` always times out and every other URL succeeds. -/
def tMix : DocAgent.Transport :=
  fun u _ => if u == "h1" then .transient else .success bodyFix

/-- The document `rawX` normalizes to at time 1. -/
def docNormX : DocAgent.Document :=
  match DocAgent.normalize rawX 1 with
  | .ok d => d
  | .error _ => docFix

/-- The document `rawX` normalizes to at time 2. -/
def docNormX2 : DocAgent.Document :=
  match DocAgent.normalize rawX 2 with
  | .ok d => d
  | .error _ => docFix

/-- A re-normalized copy of `docFix`: same `doc_id` and `content_hash`,
different title and timestamp. -/
def docFix2 : DocAgent.Document := ⟨"http://a", 0, "http://a", "t2", [], "hello world", 0, 9⟩

/-- C10: Password hashing round-trips — `verify_password(p, hash_password(p))`
is `True` for every password and salt, even though hashing is salted and two
hashes of the same password under different salts differ. -/
theorem hash_verify_roundtrip :
    (∀ p salt, Backend.verify_password p (Backend.hash_password p salt) = true) ∧
    (∀ p s1 s2, s1 ≠ s2 →
      Backend.hash_password p s1 ≠ Backend.hash_password p s2) := by
  constructor
  · intro p salt
    simp [Backend.verify_password, Backend.hash_password, Backend.checkpw, Backend.hashpw]
  · intro p s1 s2 h hcontra
    exact h (congrArg Backend.BcryptHash.salt hcontra)

/-- Witness for C10 at a concrete password and two concrete salts. -/
theorem hash_verify_roundtrip_witness :
    Backend.verify_password "pw" (Backend.hash_password "pw" "salt1") = true ∧
    Backend.hash_password "pw" "s1" ≠ Backend.hash_password "pw" "s2" :=
  ⟨hash_verify_roundtrip.1 "pw" "salt1",
   hash_verify_roundtrip.2 "pw" "s1" "s2" (by decide)⟩

/-- C9: `update_project` touches only the targeted row — a missing id returns
`None` with the store unchanged; rows with another id are untouched; every
stored row is either unchanged or the update applied to the target; and the
applied update changes `name`/`description` exactly when the corresponding
`ProjectUpdate` field is set, never `id` or `created_at`. -/
theorem update_project_frame :
    (∀ db pid u, Backend.get_project db pid = none →
      Backend.update_project db pid u = (db, none)) ∧
    (∀ db pid u (p : Backend.Project), p ∈ db → p.id ≠ pid →
      p ∈ (Backend.update_project db pid u).1) ∧
    (∀ db pid u (q : Backend.Project), q ∈ (Backend.update_project db pid u).1 →
      q ∈ db ∨ ∃ p ∈ db, p.id = pid ∧ q = Backend.applyProjectUpdate u p) ∧
    (∀ u (p : Backend.Project),
      (Backend.applyProjectUpdate u p).id = p.id ∧
      (Backend.applyProjectUpdate u p).created_at = p.created_at ∧
      (u.name = none → (Backend.applyProjectUpdate u p).name = p.name) ∧
      (∀ n, u.name = some n → (Backend.applyProjectUpdate u p).name = n) ∧
      (u.description = none →
        (Backend.applyProjectUpdate u p).description = p.description) ∧
      (∀ d, u.description = some d →
        (Backend.applyProjectUpdate u p).description = some d)) := by
  refine ⟨?_, ?_, ?_, ?_⟩
  · intro db pid u h
    simp [Backend.update_project, h]
  · intro db pid u p hp hne
    unfold Backend.update_project
    cases hg : Backend.get_project db pid with
    | none => simpa using hp
    | some p0 =>
        simp only
        exact List.mem_map.mpr ⟨p, hp, by simp [hne]⟩
  · intro db pid u q hq
    unfold Backend.update_project at hq
    cases hg : Backend.get_project db pid with
    | none => rw [hg] at hq; exact Or.inl hq
    | some p0 =>
        rw [hg] at hq
        obtain ⟨p, hp, himg⟩ := List.mem_map.mp hq
        by_cases hc : p.id = pid
        · refine Or.inr ⟨p, hp, hc, ?_⟩
          rw [← himg]
          simp [hc]
        · refine Or.inl ?_
          have : (p.id == pid) = false := by simp [hc]
          rw [← himg, this]
          simpa using hp
  · intro u p
    rcases hn : u.name with _ | n <;> rcases hd : u.description with _ | d <;>
      simp [Backend.applyProjectUpdate, hn, hd]

/-- Witness for C9 at a concrete store, id and update. -/
theorem update_project_frame_witness :
    Backend.update_project projDb 7 updFix = (projDb, none) ∧
    projA ∈ (Backend.update_project projDb 2 updFix).1 ∧
    (projA ∈ projDb ∨ ∃ p ∈ projDb, p.id = 2 ∧ projA = Backend.applyProjectUpdate updFix p) ∧
    (Backend.applyProjectUpdate updFix projA).id = projA.id ∧
    (Backend.applyProjectUpdate updFix projA).name = "gamma" ∧
    (Backend.applyProjectUpdate updFix projA).description = projA.description :=
  ⟨update_project_frame.1 projDb 7 updFix (by decide),
   update_project_frame.2.1 projDb 2 updFix projA (by decide) (by decide),
   update_project_frame.2.2.1 projDb 2 updFix projA (by decide),
   (update_project_frame.2.2.2 updFix projA).1,
   (update_project_frame.2.2.2 updFix projA).2.2.2.1 "gamma" rfl,
   (update_project_frame.2.2.2 updFix projA).2.2.2.2.1 rfl⟩

/-- C2: Normalization is deterministic — raw pages with identical
`body_bytes` normalize to the same outcome, with identical `canonical_text`
and identical `content_hash` (the timestamp and the page's URL may differ). -/
theorem normalize_deterministic :
    ∀ (r1 r2 : DocAgent.RawPage) (n1 n2 : Nat), r1.body_bytes = r2.body_bytes →
      (DocAgent.normalize r1 n1).map (fun d => (d.canonical_text, d.content_hash)) =
        (DocAgent.normalize r2 n2).map (fun d => (d.canonical_text, d.content_hash)) := by
  intro r1 r2 n1 n2 h
  unfold DocAgent.normalize
  rw [h]
  cases hc : DocAgent.normCore r2.body_bytes with
  | error e => rfl
  | ok x => obtain ⟨t, hsh, kept⟩ := x; rfl

/-- Witness for C2: two pages with the same bytes under different URLs and
timestamps. -/
theorem normalize_deterministic_witness :
    (DocAgent.normalize rawX 3).map (fun d => (d.canonical_text, d.content_hash)) =
      (DocAgent.normalize rawY 9).map (fun d => (d.canonical_text, d.content_hash)) :=
  normalize_deterministic rawX rawY 3 9 rfl

/-- C8: searching with an empty query, and searching any query against an
empty index, both return the empty result list (and, being total Lean
functions, never raise). -/
theorem search_total_on_empty :
    ∀ (iv : DocAgent.IndexVersion) (q : String) (k : Nat),
      DocAgent.search iv "" k = [] ∧ DocAgent.search DocAgent.emptyIndex q k = [] := by
  intro iv q k
  constructor
  · have ht : DocAgent.tokenize "" = [] := rfl
    simp [DocAgent.search, DocAgent.rankedCandidates, DocAgent.candidates, ht]
  · simp [DocAgent.search, DocAgent.rankedCandidates, DocAgent.candidates,
      DocAgent.emptyIndex]

/-- A URL whose every attempt is transient exhausts all attempts with
exponential backoff and fails. -/
theorem fetch_allTransient (t : DocAgent.Transport) (url : String)
    (h : ∀ i, t url i = .transient) :
    DocAgent.fetchWithRetry t url =
      (.failed, DocAgent.maxAttempts,
        [DocAgent.backoffBase * 2 ^ 0, DocAgent.backoffBase * 2 ^ 1]) := by
  simp [DocAgent.fetchWithRetry, DocAgent.maxAttempts, DocAgent.fetchGo, h]

/-- A URL whose first outcome is permanent fails after one attempt, with no
retry and no backoff. -/
theorem fetch_firstPermanent (t : DocAgent.Transport) (url : String)
    (h : t url 0 = .permanent) :
    DocAgent.fetchWithRetry t url = (.failed, 1, []) := by
  simp [DocAgent.fetchWithRetry, DocAgent.maxAttempts, DocAgent.fetchGo, h]

/-- A URL whose first outcome is a success fetches on the first attempt. -/
theorem fetch_firstSuccess (t : DocAgent.Transport) (url : String) (b : List Nat)
    (h : t url 0 = .success b) :
    DocAgent.fetchWithRetry t url = (.fetched b, 1, []) := by
  simp [DocAgent.fetchWithRetry, DocAgent.maxAttempts, DocAgent.fetchGo, h]

/-- Crawl step: an unvisited, depth-admissible, pattern-allowed URL whose
fetch fails is recorded as a failed page and the crawl continues with the
rest of the frontier. -/
theorem crawlGo_cons_failed (t : DocAgent.Transport) (s : DocAgent.Source)
    (fuel depth : Nat) (url : String) (rest : List (String × Nat))
    (v : List String) (acc : DocAgent.CrawlResult) (n : Nat) (ds : List Nat)
    (h : DocAgent.fetchWithRetry t url = (.failed, n, ds))
    (hv : v.contains url = false) (hd : depth ≤ s.max_depth)
    (ha : DocAgent.urlAllowed s url = true) :
    DocAgent.crawlGo t s (fuel + 1) ((url, depth) :: rest) v acc =
      DocAgent.crawlGo t s fuel rest (url :: v)
        { acc with failedPages := acc.failedPages ++ [url] } := by
  rw [DocAgent.crawlGo, h]
  simp [hv, ha, Nat.not_lt.mpr hd]
  intro hmem
  exact absurd hmem (by simpa using hv)

/-- Crawl step: an unvisited, depth-admissible, pattern-allowed URL whose
fetch succeeds is emitted as a raw page, expanding the frontier with its
links only below `max_depth`. -/
theorem crawlGo_cons_fetched (t : DocAgent.Transport) (s : DocAgent.Source)
    (fuel depth : Nat) (url : String) (rest : List (String × Nat))
    (v : List String) (acc : DocAgent.CrawlResult) (b : List Nat) (n : Nat)
    (ds : List Nat)
    (h : DocAgent.fetchWithRetry t url = (.fetched b, n, ds))
    (hv : v.contains url = false) (hd : depth ≤ s.max_depth)
    (ha : DocAgent.urlAllowed s url = true) :
    DocAgent.crawlGo t s (fuel + 1) ((url, depth) :: rest) v acc =
      DocAgent.crawlGo t s fuel
        (rest ++ (if depth < s.max_depth then DocAgent.extractLinks b else []).map
          (fun u => (u, depth + 1)))
        (url :: v)
        { acc with pages := acc.pages ++
            [{ source_id := s.id, url := url, http_status := 200, body_bytes := b }] } := by
  rw [DocAgent.crawlGo, h]
  simp [hv, ha, Nat.not_lt.mpr hd]
  intro hmem
  exact absurd hmem (by simpa using hv)

/-- Crawl base case: an exhausted frontier ends the crawl. -/
theorem crawlGo_nil (t : DocAgent.Transport) (s : DocAgent.Source) (fuel : Nat)
    (v : List String) (acc : DocAgent.CrawlResult) :
    DocAgent.crawlGo t s (fuel + 1) [] v acc = acc := rfl

/-- C6: the scraper retries a transient failure up to the fixed attempt count
(3) with exponential backoff delays before marking the page `Failed`; a
permanent failure is marked `Failed` after one attempt with zero retries; and
a failing page does not stop the crawl — its siblings are still fetched. -/
theorem scraper_retry_policy :
    (∀ (t : DocAgent.Transport) (url : String), (∀ i, t url i = .transient) →
      DocAgent.fetchWithRetry t url =
        (.failed, DocAgent.maxAttempts,
          [DocAgent.backoffBase * 2 ^ 0, DocAgent.backoffBase * 2 ^ 1])) ∧
    (∀ (t : DocAgent.Transport) (url : String), t url 0 = .permanent →
      DocAgent.fetchWithRetry t url = (.failed, 1, [])) ∧
    (∀ (t : DocAgent.Transport) (u1 u2 : String) (b : List Nat) (sid : Nat),
      u1 ≠ u2 → (∀ i, t u1 i = .transient) → t u2 0 = .success b →
      DocAgent.crawl t (srcPair sid u1 u2) =
        { pages := [{ source_id := sid, url := u2, http_status := 200, body_bytes := b }],
          failedPages := [u1] }) := by
  refine ⟨fetch_allTransient, fetch_firstPermanent, ?_⟩
  intro t u1 u2 b sid hne h1 h2
  have e1 := fetch_allTransient t u1 h1
  have e2 := fetch_firstSuccess t u2 b h2
  have hv2 : ([u1].contains u2) = false := by
    simp [List.contains_eq_any_beq, Ne.symm hne]
  unfold DocAgent.crawl
  rw [show DocAgent.crawlFuel = 9999 + 1 from rfl]
  rw [show (srcPair sid u1 u2).seed_urls.map (fun u => (u, 0)) = [(u1, 0), (u2, 0)] from rfl]
  rw [crawlGo_cons_failed t (srcPair sid u1 u2) 9999 0 u1 [(u2, 0)] [] _ _ _ e1 rfl
    (by simp [srcPair]) rfl]
  rw [show (9999 : Nat) = 9998 + 1 from rfl]
  rw [crawlGo_cons_fetched t (srcPair sid u1 u2) 9998 0 u2 [] [u1] _ b _ _ e2 hv2
    (by simp [srcPair]) rfl]
  rw [show (9998 : Nat) = 9997 + 1 from rfl]
  simp [crawlGo_nil, srcPair]

/-- Witness for C6 at concrete transports, URLs and bodies. -/
theorem scraper_retry_policy_witness :
    DocAgent.fetchWithRetry (fun _ _ => .transient) "u" =
      (.failed, DocAgent.maxAttempts,
        [DocAgent.backoffBase * 2 ^ 0, DocAgent.backoffBase * 2 ^ 1]) ∧
    DocAgent.fetchWithRetry (fun _ _ => .permanent) "u" = (.failed, 1, []) ∧
    DocAgent.crawl tMix (srcPair 4 "h1" "h2") =
      { pages := [{ source_id := 4, url := "h2", http_status := 200, body_bytes := bodyFix }],
        failedPages := ["h1"] } :=
  ⟨scraper_retry_policy.1 (fun _ _ => .transient) "u" (fun _ => rfl),
   scraper_retry_policy.2.1 (fun _ _ => .permanent) "u" rfl,
   scraper_retry_policy.2.2 tMix "h1" "h2" bodyFix 4 (by decide) (fun _ => rfl) rfl⟩

/-- Discovery keeps exactly the valid registry entries, in order. -/
theorem listSourcesGo_valid_length (reg : List DocAgent.RegistryEntry) :
    ∀ i, (DocAgent.listSourcesGo i reg).1.length =
      (reg.filter DocAgent.validEntry).length := by
  induction reg with
  | nil => intro i; rfl
  | cons e rest ih =>
      intro i
      cases h : DocAgent.validEntry e <;>
        simp [DocAgent.listSourcesGo, h, ih (i + 1)]

/-- Discovery records exactly one error per invalid registry entry. -/
theorem listSourcesGo_error_length (reg : List DocAgent.RegistryEntry) :
    ∀ i, (DocAgent.listSourcesGo i reg).2.length =
      (reg.filter (fun e => !DocAgent.validEntry e)).length := by
  induction reg with
  | nil => intro i; rfl
  | cons e rest ih =>
      intro i
      cases h : DocAgent.validEntry e <;>
        simp [DocAgent.listSourcesGo, h, ih (i + 1)]

/-- C5: `refresh` is a total function returning a report for every registry
and transport; every valid source is processed even when sibling entries are
invalid; the report's errors are exactly the discovery errors (one per
invalid entry) followed by every page-level error of every processed source;
and the failed-page count aggregates all per-source failures. -/
theorem refresh_aggregates_failures :
    ∀ (t : DocAgent.Transport) (reg : List DocAgent.RegistryEntry) (now : Nat)
      (st : DocAgent.AgentState),
      ((DocAgent.refresh t reg now st).2.sources_processed =
        (reg.filter DocAgent.validEntry).length) ∧
      ((DocAgent.refresh t reg now st).2.errors =
        (DocAgent.listSources reg).2 ++
          ((DocAgent.listSources reg).1.map (DocAgent.sourceErrors t now)).flatten) ∧
      ((DocAgent.listSources reg).2.length =
        (reg.filter (fun e => !DocAgent.validEntry e)).length) ∧
      ((DocAgent.refresh t reg now st).2.pages_failed =
        ((DocAgent.listSources reg).1.map
          (fun s => (DocAgent.crawl t s).failedPages.length)).sum) := by
  intro t reg now st
  refine ⟨?_, rfl, ?_, rfl⟩
  · simp [DocAgent.refresh, DocAgent.listSources, listSourcesGo_valid_length]
  · exact listSourcesGo_error_length reg 0

/-- C1: `search(q, k)` returns at most `k` results; every result is for an
indexed document containing at least one query token (under the indexing
tokenizer); the returned candidates are sorted by descending TF-IDF score
with ties broken by `normalized_at` descending then `doc_id` ascending
(`keyLE`); the results are exactly the top-k ranked candidates; and a
document's index terms are exactly the tokens of its text. -/
theorem search_ranked_results :
    ∀ (iv : DocAgent.IndexVersion) (q : String) (k : Nat),
      (DocAgent.search iv q k).length ≤ k ∧
      (∀ r ∈ DocAgent.search iv q k, ∃ e ∈ iv.entries,
        e.doc.doc_id = r.doc_id ∧
          ∃ tok ∈ DocAgent.tokenize q, tok ∈ DocAgent.termsOf e) ∧
      List.Sorted DocAgent.keyLE
        (((DocAgent.rankedCandidates iv q).take k).map DocAgent.keyOf) ∧
      DocAgent.search iv q k =
        ((DocAgent.rankedCandidates iv q).take k).map (DocAgent.mkResult q) ∧
      (∀ text tok, tok ∈ (DocAgent.postingsOf text).map DocAgent.Posting.term ↔
        tok ∈ DocAgent.tokenize text) := by
  intro iv q k
  refine ⟨?_, ?_, ?_, rfl, ?_⟩
  · simp only [DocAgent.search, List.length_map, List.length_take]
    exact min_le_left _ _
  · intro r hr
    simp only [DocAgent.search, List.mem_map] at hr
    obtain ⟨p, hp, hrp⟩ := hr
    have hp2 : p ∈ DocAgent.rankedCandidates iv q := List.mem_of_mem_take hp
    have hp3 : p ∈ (DocAgent.candidates iv q).map
        (fun e => (e, DocAgent.scoreOf iv q e)) :=
      (List.perm_insertionSort DocAgent.candLE _).mem_iff.mp hp2
    obtain ⟨e, he, hpe⟩ := List.mem_map.mp hp3
    simp only [DocAgent.candidates] at he
    obtain ⟨hent, hpred⟩ := List.mem_filter.mp he
    obtain ⟨tok, htok, hany⟩ := List.any_eq_true.mp hpred
    obtain ⟨post, hpost, heq⟩ := List.any_eq_true.mp hany
    subst hpe
    subst hrp
    refine ⟨e, hent, rfl, tok, htok, ?_⟩
    exact List.mem_map.mpr ⟨post, hpost, beq_iff_eq.mp heq⟩
  · have hs : List.Sorted DocAgent.candLE (DocAgent.rankedCandidates iv q) :=
      List.sorted_insertionSort DocAgent.candLE _
    have hs2 : List.Sorted DocAgent.candLE ((DocAgent.rankedCandidates iv q).take k) :=
      List.Pairwise.sublist (List.take_sublist _ _) hs
    exact List.pairwise_map.mpr hs2
  · intro text tok
    simp [DocAgent.postingsOf, List.map_map, Function.comp, List.mem_dedup]

/-- Witness for C1 on a one-document index and the query "world". -/
theorem search_ranked_results_witness :
    (DocAgent.search ivFix "world" 5).length ≤ 5 ∧
    (∃ e ∈ ivFix.entries,
      e.doc.doc_id =
        (DocAgent.mkResult "world"
          (entryFix, DocAgent.scoreOf ivFix "world" entryFix)).doc_id ∧
      ∃ tok ∈ DocAgent.tokenize "world", tok ∈ DocAgent.termsOf e) ∧
    ("world" ∈ (DocAgent.postingsOf "hello world").map DocAgent.Posting.term ↔
      "world" ∈ DocAgent.tokenize "hello world") :=
  ⟨(search_ranked_results ivFix "world" 5).1,
   (search_ranked_results ivFix "world" 5).2.1
     (DocAgent.mkResult "world" (entryFix, DocAgent.scoreOf ivFix "world" entryFix))
     (by decide),
   (search_ranked_results ivFix "world" 5).2.2.2.2 "hello world" "world"⟩

/-- A lookup hit is an entry stored under the looked-up `doc_id`. -/
theorem lookupEntry_doc_id (iv : DocAgent.IndexVersion) (did : String)
    (e : DocAgent.IndexedDoc) (h : DocAgent.lookupEntry iv did = some e) :
    e.doc.doc_id = did ∧ e ∈ iv.entries := by
  unfold DocAgent.lookupEntry at h
  have hp := List.find?_some h
  have hm := List.mem_of_find?_eq_some h
  exact ⟨by simpa using hp, hm⟩

/-- Fields of a successfully normalized document, in terms of the raw page. -/
theorem normalize_ok_fields (r : DocAgent.RawPage) (n : Nat) (d : DocAgent.Document)
    (h : DocAgent.normalize r n = .ok d) :
    d.doc_id = DocAgent.docIdOf r.url ∧ d.url = r.url ∧ d.normalized_at = n ∧
      ∃ t0 h0 kept, DocAgent.normCore r.body_bytes = .ok (t0, h0, kept) ∧
        d.canonical_text = t0 ∧ d.content_hash = h0 := by
  unfold DocAgent.normalize at h
  cases hc : DocAgent.normCore r.body_bytes with
  | error e => rw [hc] at h; exact absurd h (by simp)
  | ok x =>
      obtain ⟨t0, h0, kept⟩ := x
      rw [hc] at h
      simp only [Except.ok.injEq] at h
      subst h
      exact ⟨rfl, rfl, rfl, t0, h0, kept, rfl, rfl, rfl⟩

/-- Normalization success and the identifying fields do not depend on the
timestamp. -/
theorem normalize_shift (p : DocAgent.RawPage) (n1 n2 : Nat) (d : DocAgent.Document)
    (h : DocAgent.normalize p n2 = .ok d) :
    ∃ d', DocAgent.normalize p n1 = .ok d' ∧ d'.doc_id = d.doc_id ∧
      d'.content_hash = d.content_hash := by
  obtain ⟨hid, hurl, hat, t0, h0, kept, hc, hct, hch⟩ := normalize_ok_fields p n2 d h
  cases hn : DocAgent.normalize p n1 with
  | error e =>
      unfold DocAgent.normalize at hn
      rw [hc] at hn
      exact absurd hn (by simp)
  | ok d' =>
      obtain ⟨hid', hurl', hat', t1, h1, kept1, hc1, hct1, hch1⟩ :=
        normalize_ok_fields p n1 d' hn
      rw [hc] at hc1
      simp only [Except.ok.injEq, Prod.mk.injEq] at hc1
      refine ⟨d', rfl, ?_, ?_⟩
      · rw [hid', hid]
      · rw [hch1, hch, hc1.2.1]

/-- Case analysis of one ingestion step: skip a batch duplicate, carry over
the prior entry on a hash hit, or recompute and count a reindex. -/
theorem ingestDoc_cases (prior : DocAgent.IndexVersion)
    (acc : List DocAgent.IndexedDoc × Nat) (d : DocAgent.Document) :
    (acc.1.any (fun e => e.doc.doc_id == d.doc_id) = true ∧
      DocAgent.ingestDoc prior acc d = acc) ∨
    (acc.1.any (fun e => e.doc.doc_id == d.doc_id) = false ∧
      ((∃ e, DocAgent.lookupEntry prior d.doc_id = some e ∧
          e.doc.content_hash = d.content_hash ∧
          DocAgent.ingestDoc prior acc d = (acc.1 ++ [e], acc.2)) ∨
        ((∀ e, DocAgent.lookupEntry prior d.doc_id = some e →
            e.doc.content_hash ≠ d.content_hash) ∧
          DocAgent.ingestDoc prior acc d =
            (acc.1 ++ [⟨d, DocAgent.postingsOf d.canonical_text⟩], acc.2 + 1)))) := by
  cases hg : acc.1.any (fun e => e.doc.doc_id == d.doc_id) with
  | true =>
      left
      exact ⟨rfl, by unfold DocAgent.ingestDoc; simp [hg]⟩
  | false =>
      right
      refine ⟨rfl, ?_⟩
      cases hl : DocAgent.lookupEntry prior d.doc_id with
      | none =>
          right
          refine ⟨fun e he => Option.noConfusion he, ?_⟩
          unfold DocAgent.ingestDoc
          simp [hg, hl]
      | some e =>
          cases hh : e.doc.content_hash == d.content_hash with
          | true =>
              left
              refine ⟨e, rfl, beq_iff_eq.mp hh, ?_⟩
              unfold DocAgent.ingestDoc
              simp [hg, hl, hh]
          | false =>
              right
              refine ⟨?_, ?_⟩
              · intro e' he'
                rw [Option.some.injEq] at he'
                subst he'
                exact fun hcon => by simp [hcon] at hh
              · unfold DocAgent.ingestDoc
                simp [hg, hl, hh]

/-- Entries already accumulated survive the rest of an ingestion fold. -/
theorem fold_entries_mono (prior : DocAgent.IndexVersion) :
    ∀ (batch : List DocAgent.Document) (acc : List DocAgent.IndexedDoc × Nat)
      (x : DocAgent.IndexedDoc), x ∈ acc.1 →
      x ∈ (batch.foldl (DocAgent.ingestDoc prior) acc).1 := by
  intro batch
  induction batch with
  | nil => intro acc x hx; exact hx
  | cons b rest ih =>
      intro acc x hx
      simp only [List.foldl_cons]
      apply ih
      rcases ingestDoc_cases prior acc b with ⟨_, he⟩ | ⟨_, ⟨e, _, _, he⟩ | ⟨_, he⟩⟩ <;>
        rw [he] <;> simp [hx]

/-- After an ingestion fold, every batch document with a coherent hash
assignment is represented by an entry with its `doc_id` and `content_hash`. -/
theorem fold_covers (prior : DocAgent.IndexVersion) :
    ∀ (batch : List DocAgent.Document) (acc : List DocAgent.IndexedDoc × Nat)
      (d : DocAgent.Document), d ∈ batch →
      (∀ d' ∈ batch, d'.doc_id = d.doc_id → d'.content_hash = d.content_hash) →
      (∀ x ∈ acc.1, x.doc.doc_id ≠ d.doc_id) →
      ∃ x ∈ (batch.foldl (DocAgent.ingestDoc prior) acc).1,
        x.doc.doc_id = d.doc_id ∧ x.doc.content_hash = d.content_hash := by
  intro batch
  induction batch with
  | nil => intro acc d hd; exact absurd hd (by simp)
  | cons b rest ih =>
      intro acc d hd hcoh hacc
      simp only [List.foldl_cons]
      by_cases hb : b.doc_id = d.doc_id
      · have hbh : b.content_hash = d.content_hash := hcoh b (by simp) hb
        have hg : (acc.1.any (fun e => e.doc.doc_id == b.doc_id)) = false := by
          rw [List.any_eq_false]
          intro x hx
          simp only [beq_iff_eq]
          exact fun hcon => hacc x hx (hb ▸ hcon)
        rcases ingestDoc_cases prior acc b with ⟨hg', _⟩ | ⟨_, hcase⟩
        · rw [hg] at hg'; exact absurd hg' (by simp)
        · rcases hcase with ⟨e, hl, hh, he⟩ | ⟨_, he⟩
          · refine ⟨e, fold_entries_mono prior rest _ e (by rw [he]; simp), ?_, ?_⟩
            · rw [(lookupEntry_doc_id prior b.doc_id e hl).1, hb]
            · rw [hh, hbh]
          · refine ⟨⟨b, DocAgent.postingsOf b.canonical_text⟩,
              fold_entries_mono prior rest _ _ (by rw [he]; simp), hb, hbh⟩
      · have hdrest : d ∈ rest := by
          rcases List.mem_cons.mp hd with rfl | h
          · exact absurd rfl hb
          · exact h
        have hcoh' : ∀ d' ∈ rest, d'.doc_id = d.doc_id →
            d'.content_hash = d.content_hash :=
          fun d' hd' => hcoh d' (List.mem_cons_of_mem _ hd')
        have hacc' : ∀ x ∈ (DocAgent.ingestDoc prior acc b).1,
            x.doc.doc_id ≠ d.doc_id := by
          rcases ingestDoc_cases prior acc b with ⟨_, he⟩ | ⟨_, hcase⟩
          · rw [he]; exact hacc
          · rcases hcase with ⟨e, hl, _, he⟩ | ⟨_, he⟩
            · rw [he]
              intro x hx
              rcases List.mem_append.mp hx with hx | hx
              · exact hacc x hx
              · have : x = e := by simpa using hx
                subst this
                rw [(lookupEntry_doc_id prior b.doc_id x hl).1]
                exact hb
            · rw [he]
              intro x hx
              rcases List.mem_append.mp hx with hx | hx
              · exact hacc x hx
              · have : x = ⟨b, DocAgent.postingsOf b.canonical_text⟩ := by simpa using hx
                subst this
                exact hb
        exact ih (DocAgent.ingestDoc prior acc b) d hdrest hcoh' hacc'

/-- If every batch document hash-matches its prior entry, the ingestion fold
counts no reindexed document. -/
theorem fold_count_zero (prior : DocAgent.IndexVersion) :
    ∀ (batch : List DocAgent.Document) (acc : List DocAgent.IndexedDoc × Nat),
      (∀ d ∈ batch, ∃ e, DocAgent.lookupEntry prior d.doc_id = some e ∧
        e.doc.content_hash = d.content_hash) →
      (batch.foldl (DocAgent.ingestDoc prior) acc).2 = acc.2 := by
  intro batch
  induction batch with
  | nil => intro acc _; rfl
  | cons b rest ih =>
      intro acc hm
      simp only [List.foldl_cons]
      have hrest : ∀ d ∈ rest, ∃ e, DocAgent.lookupEntry prior d.doc_id = some e ∧
          e.doc.content_hash = d.content_hash :=
        fun d hd => hm d (List.mem_cons_of_mem _ hd)
      rw [ih _ hrest]
      obtain ⟨e, hl, hh⟩ := hm b (by simp)
      rcases ingestDoc_cases prior acc b with ⟨_, he⟩ | ⟨_, hcase⟩
      · rw [he]
      · rcases hcase with ⟨e', _, _, he⟩ | ⟨hno, he⟩
        · rw [he]
        · exact absurd hh (hno e hl)

/-- The ingestion fold preserves distinctness of stored `doc_id`s. -/
theorem fold_ids_nodup (prior : DocAgent.IndexVersion) :
    ∀ (batch : List DocAgent.Document) (acc : List DocAgent.IndexedDoc × Nat),
      (acc.1.map (fun x => x.doc.doc_id)).Nodup →
      (((batch.foldl (DocAgent.ingestDoc prior) acc).1.map
        (fun x => x.doc.doc_id)).Nodup) := by
  intro batch
  induction batch with
  | nil => intro acc h; exact h
  | cons b rest ih =>
      intro acc h
      simp only [List.foldl_cons]
      apply ih
      rcases ingestDoc_cases prior acc b with ⟨_, he⟩ | ⟨hg, hcase⟩
      · rw [he]; exact h
      · have hnotin : b.doc_id ∉ acc.1.map (fun x => x.doc.doc_id) := by
          rw [List.any_eq_false] at hg
          intro hcon
          obtain ⟨x, hx, hxid⟩ := List.mem_map.mp hcon
          exact absurd (beq_iff_eq.mpr hxid) (by simpa using hg x hx)
        rcases hcase with ⟨e, hl, _, he⟩ | ⟨_, he⟩
        · rw [he]
          simp only [List.map_append, List.map_cons, List.map_nil]
          rw [List.nodup_append]
          refine ⟨h, List.nodup_singleton _, ?_⟩
          intro a ha hb
          simp only [List.mem_singleton] at hb
          subst hb
          rw [(lookupEntry_doc_id prior b.doc_id e hl).1] at ha
          exact hnotin ha
        · rw [he]
          simp only [List.map_append, List.map_cons, List.map_nil]
          rw [List.nodup_append]
          exact ⟨h, List.nodup_singleton _, fun a ha hb => by
            simp only [List.mem_singleton] at hb
            subst hb
            exact hnotin ha⟩

/-- `ingest` covers every batch document that has a coherent hash
assignment. -/
theorem ingest_covers (prior : DocAgent.IndexVersion) (sids : List Nat)
    (batch : List DocAgent.Document) (d : DocAgent.Document) (hd : d ∈ batch)
    (hcoh : ∀ d' ∈ batch, d'.doc_id = d.doc_id → d'.content_hash = d.content_hash) :
    ∃ x ∈ (DocAgent.ingest prior sids batch).1.entries,
      x.doc.doc_id = d.doc_id ∧ x.doc.content_hash = d.content_hash := by
  obtain ⟨x, hx, hxi, hxh⟩ :=
    fold_covers prior batch ([], 0) d hd hcoh (by simp)
  exact ⟨x, by simp [DocAgent.ingest, hx], hxi, hxh⟩

/-- `ingest` reindexes nothing when every batch document hash-matches its
prior entry. -/
theorem ingest_count_zero (prior : DocAgent.IndexVersion) (sids : List Nat)
    (batch : List DocAgent.Document)
    (hm : ∀ d ∈ batch, ∃ e, DocAgent.lookupEntry prior d.doc_id = some e ∧
      e.doc.content_hash = d.content_hash) :
    (DocAgent.ingest prior sids batch).2 = 0 := by
  simp only [DocAgent.ingest]
  exact fold_count_zero prior batch ([], 0) hm

/-- `ingest` preserves distinctness of stored `doc_id`s. -/
theorem ingest_ids_nodup (prior : DocAgent.IndexVersion) (sids : List Nat)
    (batch : List DocAgent.Document)
    (h : (prior.entries.map (fun x => x.doc.doc_id)).Nodup) :
    (((DocAgent.ingest prior sids batch).1.entries.map
      (fun x => x.doc.doc_id)).Nodup) := by
  simp only [DocAgent.ingest, List.map_append]
  rw [List.nodup_append]
  refine ⟨?_, fold_ids_nodup prior batch ([], 0) (by simp), ?_⟩
  · exact List.Nodup.sublist (List.Sublist.map _ (List.filter_sublist _)) h
  · intro a ha hb
    obtain ⟨x, hx, hxa⟩ := List.mem_map.mp ha
    obtain ⟨y, hy, hya⟩ := List.mem_map.mp hb
    have hxf := List.mem_filter.mp hx
    have hcond := hxf.2
    simp only [Bool.and_eq_true, Bool.not_eq_true'] at hcond
    rw [List.any_eq_false] at hcond
    have := hcond.2 y hy
    simp only [beq_iff_eq] at this
    exact this (by rw [hya, ← hxa])

/-- With distinct `doc_id`s, lookup finds exactly the member entry stored
under the id. -/
theorem lookup_of_nodup :
    ∀ (l : List DocAgent.IndexedDoc) (x : DocAgent.IndexedDoc) (did : String),
      ((l.map (fun e => e.doc.doc_id)).Nodup) → x ∈ l → x.doc.doc_id = did →
      l.find? (fun e => e.doc.doc_id == did) = some x := by
  intro l
  induction l with
  | nil => intro x did _ hx; exact absurd hx (by simp)
  | cons h t ih =>
      intro x did hnd hx hid
      rcases List.mem_cons.mp hx with rfl | hxt
      · rw [List.find?_cons_of_pos]
        exact beq_iff_eq.mpr hid
      · have hne : ¬ (h.doc.doc_id == did) = true := by
          simp only [beq_iff_eq]
          intro hcon
          simp only [List.map_cons, List.nodup_cons] at hnd
          exact hnd.1 (hcon ▸ hid ▸ List.mem_map.mpr ⟨x, hxt, rfl⟩)
        rw [List.find?_cons_of_neg _ (by simpa using hne)]
        exact ih x did (by simpa using (List.nodup_cons.mp (by simpa using hnd)).2)
          hxt hid

/-- Every page emitted by the crawl loop carries the body its URL fetches to
through the transport. -/
theorem crawlGo_pages_consistent (t : DocAgent.Transport) (s : DocAgent.Source) :
    ∀ (fuel : Nat) (frontier : List (String × Nat)) (visited : List String)
      (acc : DocAgent.CrawlResult),
      (∀ p ∈ acc.pages, DocAgent.pageConsistent t p) →
      ∀ p ∈ (DocAgent.crawlGo t s fuel frontier visited acc).pages,
        DocAgent.pageConsistent t p := by
  intro fuel
  induction fuel with
  | zero =>
      intro frontier visited acc hacc p hp
      exact hacc p hp
  | succ n ih =>
      intro frontier visited acc hacc p hp
      cases frontier with
      | nil => exact hacc p hp
      | cons head rest =>
          obtain ⟨url, depth⟩ := head
          rw [DocAgent.crawlGo] at hp
          by_cases hc : (visited.contains url || decide (depth > s.max_depth) ||
              !DocAgent.urlAllowed s url) = true
          · rw [if_pos hc] at hp
            exact ih rest (url :: visited) acc hacc p hp
          · rw [if_neg hc] at hp
            rcases hf : DocAgent.fetchWithRetry t url with ⟨fr, n2, ds⟩
            rw [hf] at hp
            cases fr with
            | fetched b =>
                refine ih _ _ _ ?_ p hp
                intro q hq
                rcases List.mem_append.mp hq with hq | hq
                · exact hacc q hq
                · have hqe : q = ⟨s.id, url, 200, b⟩ := by simpa using hq
                  subst hqe
                  show (DocAgent.fetchWithRetry t url).1 = .fetched b
                  rw [hf]
            | failed =>
                refine ih _ _ _ ?_ p hp
                intro q hq
                exact hacc q hq

/-- Every page of a crawl is consistent with the transport. -/
theorem crawl_pages_consistent (t : DocAgent.Transport) (s : DocAgent.Source) :
    ∀ p ∈ (DocAgent.crawl t s).pages, DocAgent.pageConsistent t p :=
  crawlGo_pages_consistent t s DocAgent.crawlFuel _ [] _ (by simp)

/-- A document produced for a source is keyed by its URL and hashes to the
URL-determined content hash. -/
theorem sourceDocs_spec (t : DocAgent.Transport) (now : Nat) (s : DocAgent.Source)
    (d : DocAgent.Document) (hd : d ∈ DocAgent.sourceDocs t now s) :
    d.doc_id = d.url ∧ DocAgent.urlHash t d.url = some d.content_hash := by
  unfold DocAgent.sourceDocs at hd
  obtain ⟨p, hp, hpd⟩ := List.mem_filterMap.mp hd
  have hok : DocAgent.normalize p now = .ok d := by
    cases hn : DocAgent.normalize p now with
    | error e => rw [hn] at hpd; simp [Except.toOption] at hpd
    | ok d' =>
        rw [hn] at hpd
        simp only [Except.toOption, Option.some.injEq] at hpd
        rw [hpd]
  obtain ⟨hid, hurl, _, t0, h0, kept, hc, hct, hch⟩ := normalize_ok_fields p now d hok
  have hcons := crawl_pages_consistent t s p hp
  constructor
  · rw [hid, hurl]
    rfl
  · unfold DocAgent.urlHash
    rw [hurl, hcons]
    show (match DocAgent.normCore p.body_bytes with
      | .ok x => some x.2.1
      | .error _ => none) = some d.content_hash
    rw [hc, hch]

/-- A document of a refresh batch also appears, with the same `doc_id` and
`content_hash`, in the batch of any other refresh timestamp. -/
theorem sourceDocs_shift (t : DocAgent.Transport) (now1 now2 : Nat)
    (s : DocAgent.Source) (d : DocAgent.Document)
    (hd : d ∈ DocAgent.sourceDocs t now2 s) :
    ∃ d1 ∈ DocAgent.sourceDocs t now1 s,
      d1.doc_id = d.doc_id ∧ d1.content_hash = d.content_hash := by
  unfold DocAgent.sourceDocs at hd ⊢
  obtain ⟨p, hp, hpd⟩ := List.mem_filterMap.mp hd
  have hok : DocAgent.normalize p now2 = .ok d := by
    cases hn : DocAgent.normalize p now2 with
    | error e => rw [hn] at hpd; simp [Except.toOption] at hpd
    | ok d' =>
        rw [hn] at hpd
        simp only [Except.toOption, Option.some.injEq] at hpd
        rw [hpd]
  obtain ⟨d1, hok1, hid1, hh1⟩ := normalize_shift p now1 now2 d hok
  exact ⟨d1, List.mem_filterMap.mpr ⟨p, hp, by rw [hok1]; rfl⟩, hid1, hh1⟩

/-- Within one refresh batch, documents sharing a `doc_id` share a
`content_hash`: both are determined by the URL through the transport. -/
theorem batch_coherent (t : DocAgent.Transport) (now1 : Nat)
    (ss : List DocAgent.Source) (d : DocAgent.Document)
    (hd : d ∈ (ss.map (DocAgent.sourceDocs t now1)).flatten) :
    ∀ d' ∈ (ss.map (DocAgent.sourceDocs t now1)).flatten,
      d'.doc_id = d.doc_id → d'.content_hash = d.content_hash := by
  intro d' hd' hide
  obtain ⟨l, hl, hdl⟩ := List.mem_flatten.mp hd
  obtain ⟨s, hs, rfl⟩ := List.mem_map.mp hl
  obtain ⟨l', hl', hdl'⟩ := List.mem_flatten.mp hd'
  obtain ⟨s', hs', rfl⟩ := List.mem_map.mp hl'
  obtain ⟨hdu, hdh⟩ := sourceDocs_spec t now1 s d hdl
  obtain ⟨hdu', hdh'⟩ := sourceDocs_spec t now1 s' d' hdl'
  have hurl : d'.url = d.url := by rw [← hdu, ← hdu', hide]
  rw [hurl] at hdh'
  rw [hdh] at hdh'
  exact ((Option.some.injEq _ _).mp hdh').symm

/-- On a content-hash hit, the matching prior entry itself (postings
included) survives the ingestion fold. -/
theorem fold_carry (prior : DocAgent.IndexVersion) :
    ∀ (batch : List DocAgent.Document) (acc : List DocAgent.IndexedDoc × Nat)
      (d : DocAgent.Document) (e : DocAgent.IndexedDoc),
      ((batch.map DocAgent.Document.doc_id).Nodup) → d ∈ batch →
      DocAgent.lookupEntry prior d.doc_id = some e →
      e.doc.content_hash = d.content_hash →
      (∀ x ∈ acc.1, x.doc.doc_id ≠ d.doc_id) →
      e ∈ (batch.foldl (DocAgent.ingestDoc prior) acc).1 := by
  intro batch
  induction batch with
  | nil => intro acc d e _ hd; exact absurd hd (by simp)
  | cons b rest ih =>
      intro acc d e hnd hd hl hh hacc
      simp only [List.foldl_cons]
      rcases List.mem_cons.mp hd with rfl | hdrest
      · have hg : (acc.1.any (fun x => x.doc.doc_id == d.doc_id)) = false := by
          rw [List.any_eq_false]
          intro x hx
          simpa using hacc x hx
        rcases ingestDoc_cases prior acc d with ⟨hg', _⟩ | ⟨_, hcase⟩
        · rw [hg] at hg'; exact absurd hg' (by simp)
        · rcases hcase with ⟨e', hl', hh', he⟩ | ⟨hno, he⟩
          · rw [hl, Option.some.injEq] at hl'
            subst hl'
            exact fold_entries_mono prior rest _ e (by rw [he]; simp)
          · exact absurd hh (hno e hl)
      · have hbd : b.doc_id ≠ d.doc_id := by
          simp only [List.map_cons, List.nodup_cons] at hnd
          intro hcon
          exact hnd.1 (hcon ▸ List.mem_map.mpr ⟨d, hdrest, rfl⟩)
        have hacc' : ∀ x ∈ (DocAgent.ingestDoc prior acc b).1,
            x.doc.doc_id ≠ d.doc_id := by
          rcases ingestDoc_cases prior acc b with ⟨_, he⟩ | ⟨_, hcase⟩
          · rw [he]; exact hacc
          · rcases hcase with ⟨e', hl', _, he⟩ | ⟨_, he⟩
            · rw [he]
              intro x hx
              rcases List.mem_append.mp hx with hx | hx
              · exact hacc x hx
              · have hxe : x = e' := by simpa using hx
                subst hxe
                rw [(lookupEntry_doc_id prior b.doc_id x hl').1]
                exact hbd
            · rw [he]
              intro x hx
              rcases List.mem_append.mp hx with hx | hx
              · exact hacc x hx
              · have hxe : x = ⟨b, DocAgent.postingsOf b.canonical_text⟩ := by
                  simpa using hx
                subst hxe
                exact hbd
        have hnd' : ((rest.map DocAgent.Document.doc_id).Nodup) := by
          simp only [List.map_cons, List.nodup_cons] at hnd
          exact hnd.2
        exact ih _ d e hnd' hdrest hl hh hacc'

/-- C3: refreshing again with no upstream change reindexes zero documents —
the second run's `documents_indexed` is 0 for every transport, registry,
timestamps and starting state with distinct stored `doc_id`s; and during
ingestion, a batch document whose `content_hash` matches its prior entry has
that entry (postings included) carried over into the new version instead of
being recomputed. -/
theorem refresh_idempotent :
    (∀ (t : DocAgent.Transport) (reg : List DocAgent.RegistryEntry)
        (now1 now2 : Nat) (st : DocAgent.AgentState),
      ((st.index.entries.map (fun e => e.doc.doc_id)).Nodup) →
      (DocAgent.refresh t reg now2
        (DocAgent.refresh t reg now1 st).1).2.documents_indexed = 0) ∧
    (∀ (prior : DocAgent.IndexVersion) (sids : List Nat)
        (batch : List DocAgent.Document) (d : DocAgent.Document)
        (e : DocAgent.IndexedDoc),
      ((batch.map DocAgent.Document.doc_id).Nodup) → d ∈ batch →
      DocAgent.lookupEntry prior d.doc_id = some e →
      e.doc.content_hash = d.content_hash →
      e ∈ (DocAgent.ingest prior sids batch).1.entries) := by
  constructor
  · intro t reg now1 now2 st hnd
    have hidx : (DocAgent.refresh t reg now1 st).1.index =
        (DocAgent.ingest st.index
          ((DocAgent.listSources reg).1.map (fun s => s.id))
          (((DocAgent.listSources reg).1.map (DocAgent.sourceDocs t now1)).flatten)).1 :=
      rfl
    have hdoc : (DocAgent.refresh t reg now2
          (DocAgent.refresh t reg now1 st).1).2.documents_indexed =
        (DocAgent.ingest (DocAgent.refresh t reg now1 st).1.index
          ((DocAgent.listSources reg).1.map (fun s => s.id))
          (((DocAgent.listSources reg).1.map (DocAgent.sourceDocs t now2)).flatten)).2 :=
      rfl
    rw [hdoc]
    apply ingest_count_zero
    intro d hd
    obtain ⟨l, hl, hdl⟩ := List.mem_flatten.mp hd
    obtain ⟨s, hs, rfl⟩ := List.mem_map.mp hl
    obtain ⟨d1, hd1, hid1, hh1⟩ := sourceDocs_shift t now1 now2 s d hdl
    have hd1batch : d1 ∈ (((DocAgent.listSources reg).1.map
        (DocAgent.sourceDocs t now1)).flatten) :=
      List.mem_flatten.mpr ⟨_, List.mem_map.mpr ⟨s, hs, rfl⟩, hd1⟩
    have hcoh := batch_coherent t now1 (DocAgent.listSources reg).1 d1 hd1batch
    obtain ⟨x, hx, hxi, hxh⟩ := ingest_covers st.index
      ((DocAgent.listSources reg).1.map (fun s => s.id)) _ d1 hd1batch hcoh
    have hnd1 : (((DocAgent.refresh t reg now1 st).1.index.entries.map
        (fun e => e.doc.doc_id)).Nodup) := by
      rw [hidx]
      exact ingest_ids_nodup _ _ _ hnd
    have hfind := lookup_of_nodup (DocAgent.refresh t reg now1 st).1.index.entries
      x d.doc_id hnd1 (by rw [hidx]; exact hx) (by rw [hxi, hid1])
    exact ⟨x, hfind, by rw [hxh, hh1]⟩
  · intro prior sids batch d e hnd hd hl hh
    have hmem := fold_carry prior batch ([], 0) d e hnd hd hl hh (by simp)
    simp only [DocAgent.ingest]
    exact List.mem_append.mpr (Or.inr hmem)

/-- Witness for C3: a concrete double refresh reindexes nothing, and a
hash-matching entry is carried over verbatim. -/
theorem refresh_idempotent_witness :
    (DocAgent.refresh tFix regFix 2
      (DocAgent.refresh tFix regFix 1 DocAgent.initialState).1).2.documents_indexed = 0 ∧
    entryFix ∈ (DocAgent.ingest ivFix [] [docFix2]).1.entries :=
  ⟨refresh_idempotent.1 tFix regFix 1 2 DocAgent.initialState (by decide),
   refresh_idempotent.2 ivFix [] [docFix2] docFix2 entryFix
     (by decide) (by decide) (by decide) (by decide)⟩

/-- C7: ingestion and refresh preserve distinctness of `doc_id`s in the
published version, and `doc_id` is derived deterministically from the URL —
the same URL normalizes to the same `doc_id` regardless of timestamp. -/
theorem docid_unique_stable :
    (∀ (prior : DocAgent.IndexVersion) (sids : List Nat)
        (batch : List DocAgent.Document),
      ((prior.entries.map (fun e => e.doc.doc_id)).Nodup) →
      (((DocAgent.ingest prior sids batch).1.entries.map
        (fun e => e.doc.doc_id)).Nodup)) ∧
    (∀ (t : DocAgent.Transport) (reg : List DocAgent.RegistryEntry) (now : Nat)
        (st : DocAgent.AgentState),
      ((st.index.entries.map (fun e => e.doc.doc_id)).Nodup) →
      (((DocAgent.refresh t reg now st).1.index.entries.map
        (fun e => e.doc.doc_id)).Nodup)) ∧
    (∀ (r : DocAgent.RawPage) (n : Nat) (d : DocAgent.Document),
      DocAgent.normalize r n = .ok d → d.doc_id = DocAgent.docIdOf r.url) ∧
    (∀ (r1 r2 : DocAgent.RawPage) (n1 n2 : Nat) (d1 d2 : DocAgent.Document),
      DocAgent.normalize r1 n1 = .ok d1 → DocAgent.normalize r2 n2 = .ok d2 →
      r1.url = r2.url → d1.doc_id = d2.doc_id) := by
  refine ⟨ingest_ids_nodup, ?_, ?_, ?_⟩
  · intro t reg now st hnd
    exact ingest_ids_nodup _ _ _ hnd
  · intro r n d h
    exact (normalize_ok_fields r n d h).1
  · intro r1 r2 n1 n2 d1 d2 h1 h2 hurl
    rw [(normalize_ok_fields r1 n1 d1 h1).1, (normalize_ok_fields r2 n2 d2 h2).1, hurl]

/-- Witness for C7 on concrete index, refresh and pages. -/
theorem docid_unique_stable_witness :
    (((DocAgent.ingest ivFix [] [docFix2]).1.entries.map
      (fun e => e.doc.doc_id)).Nodup) ∧
    (((DocAgent.refresh tFix regFix 1 DocAgent.initialState).1.index.entries.map
      (fun e => e.doc.doc_id)).Nodup) ∧
    docNormX.doc_id = DocAgent.docIdOf rawX.url ∧
    docNormX.doc_id = docNormX2.doc_id :=
  ⟨docid_unique_stable.1 ivFix [] [docFix2] (by decide),
   docid_unique_stable.2.1 tFix regFix 1 DocAgent.initialState (by decide),
   docid_unique_stable.2.2.1 rawX 1 docNormX rfl,
   docid_unique_stable.2.2.2 rawX rawX 1 2 docNormX docNormX2 rfl rfl rfl⟩
